import Mathlib

/-!
Shallow embedding of `jsha/cargo-clone` (`src/lib.rs`, module `ops`) and proofs
about its specification claims.

External collaborators (the cargo resolution engine, the `semver` crate, the
registry HTTP API, `walkdir`, and the filesystem) are modelled as explicit data:
each external call's result is a field of an environment record, and the calls a
function performs are recorded in an event trace.  Machine behaviour such as a
Rust panic (`unwrap`, out-of-bounds indexing) is modelled by a dedicated
`panic` outcome constructor, distinct from a returned `Err`.
-/

deriving instance DecidableEq for Except

namespace CargoClone

/-- Pre-release identifier of a semantic version: numeric, or alphanumeric
(kept as its character list).  This and the comparators below model the
`semver` crate, an external collaborator: precedence is major, minor, patch,
then pre-release rules (spec section 4.4); build metadata has no precedence. -/
inductive PreId where
  | num (n : Nat)
  | alpha (s : List Char)
deriving DecidableEq

/-- A semantic version `major.minor.patch[-pre][+build]`.  Build metadata does
not participate in precedence and is not recorded. -/
structure Semver where
  major : Nat
  minor : Nat
  patch : Nat
  pre : List PreId
deriving DecidableEq

/-- Three-way comparison of naturals. -/
def natCmp (a b : Nat) : Ordering :=
  if a < b then .lt else if b < a then .gt else .eq

/-- Three-way comparison of characters by code point (ASCII order on ASCII). -/
def charCmp (a b : Char) : Ordering := natCmp a.toNat b.toNat

/-- Lexicographic comparison of lists; a strict prefix is smaller. -/
def listCmp (f : α → α → Ordering) : List α → List α → Ordering
  | [], [] => .eq
  | [], _ :: _ => .lt
  | _ :: _, [] => .gt
  | a :: as, b :: bs => (f a b).then (listCmp f as bs)

/-- Pre-release identifier precedence: numeric identifiers compare numerically
and are lower than alphanumeric ones; alphanumeric ones compare in ASCII
order. -/
def preIdCmp : PreId → PreId → Ordering
  | .num a, .num b => natCmp a b
  | .num _, .alpha _ => .lt
  | .alpha _, .num _ => .gt
  | .alpha a, .alpha b => listCmp charCmp a b

/-- Pre-release list precedence: a release (no pre-release identifiers)
outranks every pre-release; two pre-releases compare lexicographically. -/
def preCmp : List PreId → List PreId → Ordering
  | [], [] => .eq
  | [], _ :: _ => .gt
  | _ :: _, [] => .lt
  | a :: as, b :: bs => listCmp preIdCmp (a :: as) (b :: bs)

/-- Semantic-version precedence: major, then minor, then patch, then
pre-release precedence. -/
def Semver.cmp (a b : Semver) : Ordering :=
  (natCmp a.major b.major).then
    ((natCmp a.minor b.minor).then
      ((natCmp a.patch b.patch).then (preCmp a.pre b.pre)))

/-- Version `a` precedes or equals version `b` in semantic-version order. -/
def semverLe (a b : Semver) : Prop := Semver.cmp a b ≠ Ordering.gt

/-- Value of the decimal digit list `cs` (most significant first). -/
def digitsToNat (cs : List Char) : Nat :=
  cs.foldl (fun n c => n * 10 + (c.toNat - 48)) 0

/-- Splits a character list at every occurrence of `sep`. -/
def splitSep (sep : Char) : List Char → List (List Char)
  | [] => [[]]
  | c :: cs =>
    if c = sep then [] :: splitSep sep cs
    else
      match splitSep sep cs with
      | [] => [[c]]
      | p :: ps => (c :: p) :: ps

/-- Splits a character list at the first occurrence of `sep`, if any. -/
def splitFirst (sep : Char) : List Char → List Char × Option (List Char)
  | [] => ([], none)
  | c :: cs =>
    if c = sep then ([], some cs)
    else
      let r := splitFirst sep cs
      (c :: r.1, r.2)

/-- Parse of a numeric version component: nonempty, all ASCII digits, no
leading zero. -/
def parseNumPart (cs : List Char) : Option Nat :=
  if !cs.isEmpty && cs.all Char.isDigit && (cs.length == 1 || cs.headD ' ' != '0') then
    some (digitsToNat cs)
  else none

/-- Characters allowed in pre-release and build identifiers. -/
def isIdentChar (c : Char) : Bool := c.isAlpha || c.isDigit || c = '-'

/-- Parse of one pre-release identifier: numeric identifiers (no leading
zero) become `PreId.num`, other nonempty alphanumeric-and-hyphen words become
`PreId.alpha`. -/
def parsePreId (cs : List Char) : Option PreId :=
  if cs.isEmpty then none
  else if cs.all Char.isDigit then
    if cs.length == 1 || cs.headD ' ' != '0' then some (PreId.num (digitsToNat cs))
    else none
  else if cs.all isIdentChar then some (PreId.alpha cs)
  else none

/-- A build-metadata identifier: nonempty, alphanumeric and hyphens. -/
def validBuildId (cs : List Char) : Bool := !cs.isEmpty && cs.all isIdentChar

/-- Modelled behaviour of `semver::Version::parse` (external `semver` crate):
grammar `major.minor.patch[-pre][+build]`; build metadata is validated and
discarded. -/
def semverParse (s : String) : Option Semver :=
  let split1 := splitFirst '+' s.toList
  let split2 := splitFirst '-' split1.1
  match splitSep '.' split2.1 with
  | [ma, mi, pa] =>
    match parseNumPart ma, parseNumPart mi, parseNumPart pa with
    | some major, some minor, some patch =>
      let preIds : Option (List PreId) :=
        match split2.2 with
        | none => some []
        | some p => (splitSep '.' p).mapM parsePreId
      match preIds with
      | none => none
      | some pre =>
        let buildOk :=
          match split1.2 with
          | none => true
          | some b => (splitSep '.' b).all validBuildId
        if buildOk then some ⟨major, minor, patch, pre⟩ else none
    | _, _, _ => none
  | _ => none

/-- Rendering of one pre-release identifier. -/
def renderPreId : PreId → List Char
  | .num n => Nat.toDigits 10 n
  | .alpha s => s

/-- Joins components with dots. -/
def joinDots : List (List Char) → List Char
  | [] => []
  | [x] => x
  | x :: xs => x ++ '.' :: joinDots xs

/-- Rendering of a parsed version back to a string, modelling
`Version::to_string` (build metadata is not recorded, hence not rendered). -/
def renderSemver (v : Semver) : String :=
  let core := Nat.toDigits 10 v.major ++ '.' :: Nat.toDigits 10 v.minor ++
    '.' :: Nat.toDigits 10 v.patch
  match v.pre with
  | [] => String.mk core
  | pre => String.mk (core ++ '-' :: joinDots (pre.map renderPreId))

/-- Identifier of a package: its name and version. -/
structure PackageId where
  name : String
  version : Semver
deriving DecidableEq

/-- Lightweight result of a source query (cargo `Summary`). -/
structure Summary where
  pid : PackageId
deriving DecidableEq

/-- Version carried by a summary. -/
def Summary.version (s : Summary) : Semver := s.pid.version

/-- A downloaded package: name, version and root directory of its source
tree. -/
structure Package where
  name : String
  version : Semver
  root : String
deriving DecidableEq

/-- Externally visible calls made during `clone`/`select_pkg`: package-cache
lock acquisition, source metadata update, source query, package download,
package enumeration by a path/git source, recursive destination-directory
creation (`fs::create_dir_all`, which creates missing parents), and the
`clone_directory` invocation. -/
inductive Ev where
  | lock
  | update
  | query (name : String) (vers : Option String)
  | download (id : PackageId)
  | readPackages
  | createDirAll (p : String)
  | cloneDir (src : String) (dest : String)
deriving DecidableEq

/-- Result of one resolve: cargo `CargoResult<Package>`, plus the Rust panic
case for the out-of-bounds index on line 192. -/
inductive SelOutcome where
  | ok (p : Package)
  | err (e : String)
  | panic (m : String)
deriving DecidableEq

/-- Behaviour of the source handle (`T: Source`): the results of its
fallible operations, one field per operation. -/
structure SrcModel where
  updateRes : Except String Unit
  queryRes : String → Option String → Except String (List Summary)
  downloadRes : PackageId → Except String Package
  readPackagesRes : Except String (List Package)

/-- Rust `summaries.iter().max_by_key(|s| s.version())`: on ties the later
element wins; `none` on an empty list. -/
def max_by_version : List Summary → Option Summary
  | [] => none
  | x :: xs =>
    some (xs.foldl (fun acc y =>
      if Semver.cmp acc.version y.version = Ordering.gt then acc else y) x)

/-- Models lib.rs lines 168–175: parse the requested version with cargo
`to_semver` (whose descriptive failure message is re-raised by the `bail!`)
and re-render the parsed version (`v.to_string()`) as the dependency version
request. -/
def versToArg : Option String → Except String (Option String)
  | none => Except.ok none
  | some v =>
    match semverParse v with
    | some sv => Except.ok (some (renderSemver sv))
    | none => Except.error ("cannot parse '" ++ v ++ "' as a semver")

/-- Shallow embedding of `select_pkg` (lib.rs lines 154–195).  The `list_all`
closure is passed as data: its result `listAllRes` and the events
`listAllEvs` its execution performs (`[.readPackages]` for the path/git
closures, `[]` for the registry closure, which only raises an error).
`Dependency::parse_no_deprecated` on a name and a re-rendered exact version
is modelled as always succeeding. -/
def select_pkg (src : SrcModel) (listAllRes : Except String (List Package))
    (listAllEvs : List Ev) (name : Option String) (vers : Option String) :
    SelOutcome × List Ev :=
  match src.updateRes with
  | .error e => (.err e, [.update])
  | .ok _ =>
    match name with
    | some name =>
      match versToArg vers with
      | .error e => (.err e, [.update])
      | .ok versArg =>
        match src.queryRes name versArg with
        | .error e => (.err e, [.update, .query name versArg])
        | .ok summaries =>
          match max_by_version summaries with
          | some l =>
            match src.downloadRes l.pid with
            | .error e => (.err e, [.update, .query name versArg, .download l.pid])
            | .ok pkg => (.ok pkg, [.update, .query name versArg, .download l.pid])
          | none =>
            (.err ("package '" ++ name ++ "' not found"),
             [.update, .query name versArg])
    | none =>
      match listAllRes with
      | .error e => (.err e, .update :: listAllEvs)
      | .ok cands =>
        match cands with
        | [] => (.panic "index out of bounds", .update :: listAllEvs)
        | c :: _ => (.ok c, .update :: listAllEvs)

/-- Results of the external calls `clone` makes, one field per call site:
cache lock, `SourceConfigMap::new`, the path source's explicit `update`
(line 99), `GitSource::new`, `map.load`, the source handle itself, the
current directory, destination existence, destination directory listing,
`fs::create_dir_all`, and `clone_directory` (abstracted here; modelled in
full separately). -/
structure CloneEnv where
  lockRes : Except String Unit
  mapRes : Except String Unit
  pathUpdateRes : Except String Unit
  gitNewRes : Except String Unit
  loadRes : Except String Unit
  src : SrcModel
  cwdRes : Except String String
  pathExists : String → Bool
  readDirRes : String → Except String (List String)
  createDirAllRes : String → Except String Unit
  cloneDirRes : String → String → Except String Unit

/-- The three source-id kinds `clone` dispatches on. -/
inductive SourceKind where
  | path (p : String)
  | git (url : String)
  | registry

/-- Error raised by the registry branch's `list_all` closure (lib.rs lines
116–122). -/
def registryNameMsg : String :=
  "must specify a crate to clone from crates.io, or use --path or --git to specify alternate source"

/-- Dispatch part of `clone` (lib.rs lines 95–124): build a source handle
according to the source-id kind and resolve one package via `select_pkg`. -/
def resolvePkg (env : CloneEnv) (krate : Option String) (srcid : SourceKind)
    (vers : Option String) : SelOutcome × List Ev :=
  match env.mapRes with
  | .error e => (.err e, [])
  | .ok _ =>
    match srcid with
    | .path _ =>
      match env.pathUpdateRes with
      | .error e => (.err e, [.update])
      | .ok _ =>
        let r := select_pkg env.src env.src.readPackagesRes [.readPackages] krate vers
        (r.1, .update :: r.2)
    | .git _ =>
      match env.gitNewRes with
      | .error e => (.err e, [])
      | .ok _ => select_pkg env.src env.src.readPackagesRes [.readPackages] krate vers
    | .registry =>
      match env.loadRes with
      | .error e => (.err e, [])
      | .ok _ => select_pkg env.src (.error registryNameMsg) [] krate vers

/-- Destination computation (lib.rs lines 126–134): the supplied prefix
verbatim, else the current directory extended with the package name. -/
def destPath (env : CloneEnv) (pfx : Option String) (pkg : Package) :
    Except String String :=
  match pfx with
  | some p => .ok p
  | none => env.cwdRes.map (fun cwd => cwd ++ "/" ++ pkg.name)

/-- Result of `clone`: `CargoResult<()>` plus the propagated panic case. -/
inductive CloneOutcome where
  | ok
  | err (e : String)
  | panic (m : String)
deriving DecidableEq

/-- Tail of `clone` (lib.rs line 149): run `clone_directory` on the package
root and the destination. -/
def cloneFinish (env : CloneEnv) (pkg : Package) (dest : String)
    (evs : List Ev) : CloneOutcome × List Ev :=
  match env.cloneDirRes pkg.root dest with
  | .error e => (.err e, evs ++ [.cloneDir pkg.root dest])
  | .ok _ => (.ok, evs ++ [.cloneDir pkg.root dest])

/-- Shallow embedding of `clone` (lib.rs lines 86–152). -/
def clone (env : CloneEnv) (krate : Option String) (srcid : SourceKind)
    (pfx : Option String) (vers : Option String) : CloneOutcome × List Ev :=
  match env.lockRes with
  | .error e => (.err e, [])
  | .ok _ =>
    match resolvePkg env krate srcid vers with
    | (.err e, evs) => (.err e, .lock :: evs)
    | (.panic m, evs) => (.panic m, .lock :: evs)
    | (.ok pkg, evs) =>
      match destPath env pfx pkg with
      | .error e => (.err e, .lock :: evs)
      | .ok dest =>
        if !env.pathExists dest then
          match env.createDirAllRes dest with
          | .error e => (.err e, .lock :: evs ++ [.createDirAll dest])
          | .ok _ => cloneFinish env pkg dest (.lock :: evs ++ [.createDirAll dest])
        else
          match env.readDirRes dest with
          | .error e => (.err e, .lock :: evs)
          | .ok entries =>
            if entries.isEmpty then cloneFinish env pkg dest (.lock :: evs)
            else
              (.err ("destination path '" ++ dest ++
                 "' already exists and is not an empty directory."),
               .lock :: evs)

/-- Kind and content of a walked directory entry. -/
inductive EntryNode where
  | file (content : String)
  | dir
deriving DecidableEq

/-- One entry yielded by the `WalkDir` walk: its path relative to the walk
root (`[]` for the root itself), its final name component
(`entry.file_name()`), and its kind. -/
structure WalkEntry where
  relPath : List String
  name : String
  node : EntryNode
deriving DecidableEq

/-- One item of the walk stream: `walkdir` yields `Result<DirEntry>`. -/
inductive WalkItem where
  | ok (e : WalkEntry)
  | err (msg : String)
deriving DecidableEq

/-- A write `clone_directory` performs in the destination tree, identified by
destination-relative path. -/
inductive Write where
  | copyFile (path : List String) (content : String)
  | mkdir (path : List String)
deriving DecidableEq

/-- Exit of `clone_directory`: normal return, returned error, or Rust
panic. -/
inductive ExitKind where
  | ok
  | err (e : String)
  | panic (m : String)
deriving DecidableEq

/-- Exit paired with the writes performed before it. -/
structure CdResult where
  exit : ExitKind
  writes : List Write
deriving DecidableEq

/-- Fault injection for the filesystem operations of `clone_directory`: the
failure, if any, of `fs::copy` / `fs::create_dir` at a destination-relative
path (`none` means the operation succeeds). -/
structure CdFaults where
  copyRes : List String → Option String
  mkdirRes : List String → Option String

/-- The fault-free filesystem. -/
def noFaults : CdFaults := ⟨fun _ => none, fun _ => none⟩

/-- The sentinel marker file name skipped by `clone_directory`. -/
def cargoOkName : String := ".cargo-ok"

/-- Loop body of `clone_directory` (lib.rs lines 203–218) over the walk
stream.  A walk error is `unwrap`ped — a panic.  `fs::copy` and
`fs::create_dir` failures are returned via `?`.  A file named `.cargo-ok` is
skipped, as is the root directory (whose destination path equals `to`). -/
def cdRun (f : CdFaults) : List WalkItem → CdResult
  | [] => ⟨.ok, []⟩
  | .err m :: _ => ⟨.panic m, []⟩
  | .ok e :: rest =>
    match e.node with
    | .file c =>
      if e.name ≠ cargoOkName then
        match f.copyRes e.relPath with
        | some er => ⟨.err er, []⟩
        | none =>
          let r := cdRun f rest
          ⟨r.exit, .copyFile e.relPath c :: r.writes⟩
      else cdRun f rest
    | .dir =>
      if e.relPath = [] then cdRun f rest
      else
        match f.mkdirRes e.relPath with
        | some er => ⟨.err er, []⟩
        | none =>
          let r := cdRun f rest
          ⟨r.exit, .mkdir e.relPath :: r.writes⟩

/-- Shallow embedding of `clone_directory` (lib.rs lines 199–221): `to` must
already be a directory, then the walk stream is processed. -/
def clone_directory (toPath : String) (toIsDir : Bool) (items : List WalkItem)
    (f : CdFaults) : CdResult :=
  if !toIsDir then ⟨.err ("not a directory: " ++ toPath), []⟩
  else cdRun f items

mutual
/-- A source filesystem tree: a regular file with contents, or a
directory. -/
inductive FsTree where
  | file (content : String)
  | dir (d : FsDir)
/-- The entries of a directory: a name-to-tree association list. -/
inductive FsDir where
  | nil
  | cons (name : String) (t : FsTree) (rest : FsDir)
end

mutual
/-- Walk of the tree node with relative path `rel` and final name `name`, in
`WalkDir` order: every directory is yielded before its descendants. -/
def walkTree (rel : List String) (name : String) : FsTree → List WalkItem
  | .file c => [.ok ⟨rel, name, .file c⟩]
  | .dir d => .ok ⟨rel, name, .dir⟩ :: walkFsDir rel d
/-- Walk of the children of a directory whose relative path is `rel`. -/
def walkFsDir (rel : List String) : FsDir → List WalkItem
  | .nil => []
  | .cons n t rest => walkTree (rel ++ [n]) n t ++ walkFsDir rel rest
end

/-- The walk stream of a source tree whose root directory (named
`rootName`) has entries `d`. -/
def walkRoot (rootName : String) (d : FsDir) : List WalkItem :=
  walkTree [] rootName (.dir d)

mutual
/-- Contents of the regular file at the given relative path, if any. -/
def fileAt : FsTree → List String → Option String
  | .file c, [] => some c
  | .file _, _ :: _ => none
  | .dir _, [] => none
  | .dir d, n :: p => fileAtDir d n p
/-- Contents of the file at path `n :: p` among directory entries. -/
def fileAtDir : FsDir → String → List String → Option String
  | .nil, _, _ => none
  | .cons m t rest, n, p => if m = n then fileAt t p else fileAtDir rest n p
end

mutual
/-- Whether the given relative path denotes a directory of the tree. -/
def dirAt : FsTree → List String → Bool
  | .file _, _ => false
  | .dir _, [] => true
  | .dir d, n :: p => dirAtDir d n p
/-- Whether path `n :: p` denotes a directory among directory entries. -/
def dirAtDir : FsDir → String → List String → Bool
  | .nil, _, _ => false
  | .cons m t rest, n, p => if m = n then dirAt t p else dirAtDir rest n p
end

/-- The entry names of a directory. -/
def fsNames : FsDir → List String
  | .nil => []
  | .cons n _ rest => n :: fsNames rest

mutual
/-- Well-formed tree: entry names are unique in every directory. -/
def wfTree : FsTree → Bool
  | .file _ => true
  | .dir d => wfDir d
/-- Well-formed directory entries: no duplicate names, recursively. -/
def wfDir : FsDir → Bool
  | .nil => true
  | .cons n t rest => !(fsNames rest).contains n && wfTree t && wfDir rest
end

/-- The write performed for one successfully walked entry, if any. -/
def writeOf : WalkItem → Option Write
  | .err _ => none
  | .ok e =>
    match e.node with
    | .file c => if e.name ≠ cargoOkName then some (.copyFile e.relPath c) else none
    | .dir => if e.relPath = [] then none else some (.mkdir e.relPath)

/-- A reverse-dependency entry as returned by the registry API (struct
`Ver`): the dependent crate's name and a version string. -/
structure RevVer where
  krate : String
  num : String
deriving DecidableEq

/-- Result of `find_reverse_deps`; `diverged` marks fuel exhaustion of the
model (the Rust loop would still be iterating). -/
inductive FrdRes where
  | ok (names : List String)
  | err (e : String)
  | diverged
deriving DecidableEq

/-- Loop of `find_reverse_deps` (lib.rs lines 41–58).  `fetch p` models the
HTTP GET for page `p` plus the JSON parse; the request log records the
`(page, per_page)` query pairs, `per_page` being the literal `100` of line
47. -/
def frdGo (fetch : Nat → Except String (List RevVer)) :
    Nat → Nat → List String → List (Nat × Nat) → FrdRes × List (Nat × Nat)
  | 0, _, _, reqs => (.diverged, reqs)
  | fuel + 1, page, acc, reqs =>
    match fetch page with
    | .error e => (.err e, reqs ++ [(page, 100)])
    | .ok vers =>
      if vers.isEmpty then (.ok acc, reqs ++ [(page, 100)])
      else
        frdGo fetch fuel (page + 1) (acc ++ vers.map RevVer.krate)
          (reqs ++ [(page, 100)])

/-- Shallow embedding of `find_reverse_deps` (lib.rs lines 38–60): pages are
requested from page 1, results accumulate in page order, the loop stops at
the first empty page, and a fetch error is returned as-is. -/
def find_reverse_deps (fetch : Nat → Except String (List RevVer))
    (fuel : Nat) : FrdRes × List (Nat × Nat) :=
  frdGo fetch fuel 1 [] []

/-- Console output of `clone_reverse_deps` and the per-dependent `clone`
calls it makes. -/
inductive BatchEv where
  | printCount (krate : String) (n : Nat)
  | cloneCall (name : String) (pfx : Option String)
  | printErr (name : String) (e : String)
deriving DecidableEq

/-- Result of `clone_reverse_deps` (errors only stem from the crawl). -/
inductive BatchRes where
  | ok
  | err (e : String)
  | diverged
deriving DecidableEq

/-- Per-dependent destination (lib.rs line 76). -/
def depPfx (pfx : Option String) (k : String) : Option String :=
  pfx.map (fun p => p ++ "/" ++ k)

/-- Body of the `for k in krates` loop (lib.rs lines 75–81): call `clone`
for each dependent; a failure is printed, not propagated.  `cloneFn k p`
models `clone(Some(&k), srcid, p, vers, config)` with `srcid`, `vers` and
`config` fixed by the caller. -/
def crdLoop (cloneFn : String → Option String → Except String Unit)
    (pfx : Option String) : List String → List BatchEv
  | [] => []
  | k :: ks =>
    let np := depPfx pfx k
    let tail := crdLoop cloneFn pfx ks
    match cloneFn k np with
    | .ok _ => .cloneCall k np :: tail
    | .error e => .cloneCall k np :: .printErr k e :: tail

/-- Shallow embedding of `clone_reverse_deps` (lib.rs lines 62–84). -/
def clone_reverse_deps (fetch : Nat → Except String (List RevVer))
    (fuel : Nat) (cloneFn : String → Option String → Except String Unit)
    (krate : String) (pfx : Option String) : BatchRes × List BatchEv :=
  match (find_reverse_deps fetch fuel).1 with
  | .diverged => (.diverged, [])
  | .err e => (.err e, [])
  | .ok krates =>
    (.ok, .printCount krate krates.length :: crdLoop cloneFn pfx krates)

/-- Names accumulated from pages `p, p+1, …, p+m-1`, in page order. -/
def pagesConcat (pages : Nat → List RevVer) (p m : Nat) : List String :=
  match m with
  | 0 => []
  | m + 1 => (pages p).map RevVer.krate ++ pagesConcat pages (p + 1) m

/-- The request log for pages `p, …, p+m-1`, each with `per_page = 100`. -/
def pageReqs (p m : Nat) : List (Nat × Nat) :=
  match m with
  | 0 => []
  | m + 1 => (p, 100) :: pageReqs (p + 1) m

/-- Shorthand for a release version. -/
def ver (a b c : Nat) : Semver := ⟨a, b, c, []⟩

/-- Shorthand for a summary. -/
def sumOf (n : String) (v : Semver) : Summary := ⟨⟨n, v⟩⟩

/-- Shorthand for a package. -/
def pkgOf (n : String) (v : Semver) (r : String) : Package := ⟨n, v, r⟩

/-- A source handle whose operations all succeed trivially. -/
def okSrc : SrcModel where
  updateRes := .ok ()
  queryRes := fun _ _ => .ok []
  downloadRes := fun _ => .error "no download"
  readPackagesRes := .ok []

/-- Concrete source used by witnesses: three versions of every queried
crate, successful downloads, one enumerable package. -/
def demoSrc : SrcModel where
  updateRes := .ok ()
  queryRes := fun n _ => .ok [sumOf n (ver 1 0 0), sumOf n (ver 2 1 0), sumOf n (ver 0 9 0)]
  downloadRes := fun id => .ok (pkgOf id.name id.version "/cache/src")
  readPackagesRes := .ok [pkgOf "only" (ver 1 0 0) "/repo"]

/-- Concrete environment used by witnesses: everything succeeds, and the
path `/busy` is the one existing, nonempty directory. -/
def demoEnv : CloneEnv where
  lockRes := .ok ()
  mapRes := .ok ()
  pathUpdateRes := .ok ()
  gitNewRes := .ok ()
  loadRes := .ok ()
  src := demoSrc
  cwdRes := .ok "/work"
  pathExists := fun p => p == "/busy"
  readDirRes := fun p => if p == "/busy" then .ok ["junk"] else .ok []
  createDirAllRes := fun _ => .ok ()
  cloneDirRes := fun _ _ => .ok ()

mutual
/-- Specification-side mirror of the copy: the writes expected for the tree
node `t` that is the entry named `name` of the directory at relative path
`rel` (following spec section 4.3: copy non-sentinel files, create non-root
directories). -/
def mirrorTree (rel : List String) (name : String) : FsTree → List Write
  | .file c =>
    if name ≠ cargoOkName then [.copyFile (rel ++ [name]) c] else []
  | .dir d => .mkdir (rel ++ [name]) :: mirrorDir (rel ++ [name]) d
/-- Specification-side mirror of the copy for all entries of the directory
at relative path `rel`. -/
def mirrorDir (rel : List String) : FsDir → List Write
  | .nil => []
  | .cons n t rest => mirrorTree rel n t ++ mirrorDir rel rest
end

/-- The fault, if any, hitting the filesystem operation performed for a
successfully walked entry (entries that trigger no operation cannot
fault). -/
def entryFault (f : CdFaults) (e : WalkEntry) : Option String :=
  match e.node with
  | .file _ => if e.name ≠ cargoOkName then f.copyRes e.relPath else none
  | .dir => if e.relPath = [] then none else f.mkdirRes e.relPath

/-- One mocked reverse-dependency entry. -/
def mockVer : RevVer := ⟨"dep", "1.0.0"⟩

/-- Mocked page contents of sizes 100, 100, 37, 0, …. -/
def mockPages (k : Nat) : List RevVer :=
  if k ≤ 2 then List.replicate 100 mockVer
  else if k = 3 then List.replicate 37 mockVer
  else []

/-- Mocked page fetcher that always succeeds. -/
def mockFetch (k : Nat) : Except String (List RevVer) := .ok (mockPages k)

/-- Mocked fetcher with a single page of three dependents. -/
def threeFetch (k : Nat) : Except String (List RevVer) :=
  if k = 1 then .ok [⟨"a", "1"⟩, ⟨"b", "1"⟩, ⟨"c", "1"⟩] else .ok []

/-- A per-dependent clone function that fails exactly on crate `b`. -/
def failB (k : String) (_ : Option String) : Except String Unit :=
  if k = "b" then .error "boom" else .ok ()

/-- A concrete source tree: a manifest, a sentinel file, and a `src`
directory containing a source file and another sentinel file. -/
def demoFsDir : FsDir :=
  .cons "Cargo.toml" (.file "[package]")
    (.cons ".cargo-ok" (.file "ok")
      (.cons "src"
        (.dir (.cons "main.rs" (.file "fn main") (.cons ".cargo-ok" (.file "x") .nil)))
        .nil))

/-- Fault injection failing the copy of `bad.txt`. -/
def faultyCopy : CdFaults :=
  ⟨fun p => if p = ["bad.txt"] then some "copy failed" else none, fun _ => none⟩

theorem natCmp_transCmp : Batteries.TransCmp natCmp := by
  refine { symm := fun a b => ?_, le_trans := @fun a b c h₁ h₂ => ?_ }
  · simp only [natCmp]
    rcases Nat.lt_trichotomy a b with h | h | h <;>
      simp [h, Nat.lt_asymm, Nat.lt_irrefl, Ordering.swap] <;> omega
  · simp only [natCmp] at *
    split at h₁ <;> split at h₂ <;> split <;> simp_all <;> omega

theorem charCmp_transCmp : Batteries.TransCmp charCmp := by
  refine { symm := fun a b => ?_, le_trans := @fun a b c h₁ h₂ => ?_ }
  · exact natCmp_transCmp.symm _ _
  · exact natCmp_transCmp.le_trans h₁ h₂

/-- Lexicographic composition of two comparators on the same type preserves
`TransCmp`. -/
theorem thenCmp_transCmp {c d : α → α → Ordering}
    (hc : Batteries.TransCmp c) (hd : Batteries.TransCmp d) :
    Batteries.TransCmp (fun a b => (c a b).then (d a b)) := by
  refine { symm := fun a b => ?_, le_trans := @fun a b e h₁ h₂ => ?_ }
  · simp only [Ordering.swap_then, hc.symm a b, hd.symm a b]
  · simp only [ne_eq, Ordering.then_eq_gt, not_or, not_and] at h₁ h₂ ⊢
    obtain ⟨h₁g, h₁e⟩ := h₁
    obtain ⟨h₂g, h₂e⟩ := h₂
    rcases hab : c a b with _ | _ | _ <;> rcases hbe : c b e with _ | _ | _
    · have : c a e = .lt := hc.lt_trans hab hbe
      simp [this]
    · have : c a e = .lt := by
        have := hc.cmp_congr_right (x := a) hbe
        rw [← this, hab]
      simp [this]
    · exact absurd hbe h₂g
    · have : c a e = .lt := by
        have := hc.cmp_congr_left (z := e) hab
        rw [this, hbe]
      simp [this]
    · have hae : c a e = .eq := by
        have := hc.cmp_congr_left (z := e) hab
        rw [this, hbe]
      refine ⟨by simp [hae], fun _ => ?_⟩
      exact hd.le_trans (h₁e hab) (h₂e hbe)
    · exact absurd hbe h₂g
    · exact absurd hab h₁g
    · exact absurd hab h₁g
    · exact absurd hab h₁g

/-- Comparing through a projection preserves `TransCmp`. -/
theorem comapCmp_transCmp {c : α → α → Ordering} (f : β → α)
    (hc : Batteries.TransCmp c) :
    Batteries.TransCmp (fun a b => c (f a) (f b)) := by
  refine { symm := fun a b => ?_, le_trans := @fun a b e h₁ h₂ => ?_ }
  · exact hc.symm _ _
  · exact hc.le_trans h₁ h₂

theorem listCmp_transCmp {f : α → α → Ordering} (hf : Batteries.TransCmp f) :
    Batteries.TransCmp (listCmp f) := by
  have symm : ∀ as bs, (listCmp f as bs).swap = listCmp f bs as := by
    intro as
    induction as with
    | nil => intro bs; cases bs <;> rfl
    | cons a as ih =>
      intro bs
      cases bs with
      | nil => rfl
      | cons b bs => simp only [listCmp, Ordering.swap_then, hf.symm a b, ih bs]
  have letr : ∀ as bs cs, listCmp f as bs ≠ .gt → listCmp f bs cs ≠ .gt →
      listCmp f as cs ≠ .gt := by
    intro as
    induction as with
    | nil =>
      intro bs cs h₁ h₂
      cases cs <;> simp [listCmp]
    | cons a as ih =>
      intro bs cs h₁ h₂
      cases bs with
      | nil => simp [listCmp] at h₁
      | cons b bs =>
        cases cs with
        | nil => simp [listCmp] at h₂
        | cons c cs =>
          simp only [listCmp, ne_eq, Ordering.then_eq_gt, not_or, not_and] at h₁ h₂ ⊢
          obtain ⟨h₁g, h₁e⟩ := h₁
          obtain ⟨h₂g, h₂e⟩ := h₂
          rcases hab : f a b with _ | _ | _ <;> rcases hbc : f b c with _ | _ | _
          · have : f a c = .lt := hf.lt_trans hab hbc
            simp [this]
          · have : f a c = .lt := by
              have := hf.cmp_congr_right (x := a) hbc
              rw [← this, hab]
            simp [this]
          · exact absurd hbc h₂g
          · have : f a c = .lt := by
              have := hf.cmp_congr_left (z := c) hab
              rw [this, hbc]
            simp [this]
          · have hac : f a c = .eq := by
              have := hf.cmp_congr_left (z := c) hab
              rw [this, hbc]
            refine ⟨by simp [hac], fun _ => ?_⟩
            exact ih bs cs (h₁e hab) (h₂e hbc)
          · exact absurd hbc h₂g
          · exact absurd hab h₁g
          · exact absurd hab h₁g
          · exact absurd hab h₁g
  exact { symm := symm, le_trans := @fun as bs cs => letr as bs cs }

theorem preIdCmp_transCmp : Batteries.TransCmp preIdCmp := by
  have hl := listCmp_transCmp charCmp_transCmp
  refine { symm := fun a b => ?_, le_trans := @fun a b c h₁ h₂ => ?_ }
  · cases a <;> cases b <;>
      simp only [preIdCmp, Ordering.swap] <;>
      first
        | exact natCmp_transCmp.symm _ _
        | exact hl.symm _ _
        | rfl
  · cases a <;> cases b <;> cases c <;>
      simp only [preIdCmp, ne_eq] at h₁ h₂ ⊢ <;>
      first
        | exact natCmp_transCmp.le_trans h₁ h₂
        | exact hl.le_trans h₁ h₂
        | simp_all
        | exact fun h => h rfl

theorem preCmp_transCmp : Batteries.TransCmp preCmp := by
  have hl := listCmp_transCmp preIdCmp_transCmp
  refine { symm := fun a b => ?_, le_trans := @fun a b c h₁ h₂ => ?_ }
  · cases a <;> cases b <;>
      first
        | rfl
        | exact hl.symm _ _
  · cases a <;> cases b <;> cases c <;>
      simp only [preCmp, ne_eq] at h₁ h₂ ⊢ <;>
      first
        | exact hl.le_trans h₁ h₂
        | simp_all
        | exact fun h => h rfl

theorem semverCmp_transCmp : Batteries.TransCmp Semver.cmp := by
  have h :
      Batteries.TransCmp
        (fun a b : Semver =>
          ((fun a b : Semver => natCmp a.major b.major) a b).then
            (((fun a b : Semver => natCmp a.minor b.minor) a b).then
              (((fun a b : Semver => natCmp a.patch b.patch) a b).then
                ((fun a b : Semver => preCmp a.pre b.pre) a b)))) :=
    thenCmp_transCmp (comapCmp_transCmp Semver.major natCmp_transCmp)
      (thenCmp_transCmp (comapCmp_transCmp Semver.minor natCmp_transCmp)
        (thenCmp_transCmp (comapCmp_transCmp Semver.patch natCmp_transCmp)
          (comapCmp_transCmp Semver.pre preCmp_transCmp)))
  exact h

theorem semverLe_refl (a : Semver) : semverLe a a := by
  have := semverCmp_transCmp.cmp_refl (x := a)
  simp [semverLe, this]

theorem semverLe_trans {a b c : Semver} (h₁ : semverLe a b) (h₂ : semverLe b c) :
    semverLe a c :=
  semverCmp_transCmp.le_trans h₁ h₂

theorem semverLe_of_gt {a b : Semver} (h : Semver.cmp a b = Ordering.gt) :
    semverLe b a := by
  have := semverCmp_transCmp.symm a b
  simp [semverLe]
  rw [← this, h]
  simp [Ordering.swap]

theorem semverLe_of_not_gt {a b : Semver} (h : ¬ Semver.cmp a b = Ordering.gt) :
    semverLe a b := h

theorem foldl_max_by_version (x : Summary) (xs : List Summary) :
    xs.foldl (fun acc y =>
        if Semver.cmp acc.version y.version = Ordering.gt then acc else y) x ∈ x :: xs ∧
    ∀ z ∈ x :: xs,
      semverLe z.version
        (xs.foldl (fun acc y =>
          if Semver.cmp acc.version y.version = Ordering.gt then acc else y) x).version := by
  induction xs generalizing x with
  | nil =>
    refine ⟨List.mem_singleton.mpr rfl, ?_⟩
    intro z hz
    rw [List.mem_singleton] at hz
    subst hz
    exact semverLe_refl _
  | cons y ys ih =>
    by_cases hxy : Semver.cmp x.version y.version = Ordering.gt
    · simp only [List.foldl_cons, if_pos hxy]
      obtain ⟨hmem, hle⟩ := ih x
      refine ⟨?_, ?_⟩
      · rcases List.mem_cons.mp hmem with h | h
        · rw [h]; exact List.mem_cons_self _ _
        · exact List.mem_cons_of_mem _ (List.mem_cons_of_mem _ h)
      · intro z hz
        rcases List.mem_cons.mp hz with h | hz
        · rw [h]; exact hle x (List.mem_cons_self _ _)
        · rcases List.mem_cons.mp hz with h | hz
          · rw [h]
            exact semverLe_trans (semverLe_of_gt hxy) (hle x (List.mem_cons_self _ _))
          · exact hle z (List.mem_cons_of_mem _ hz)
    · simp only [List.foldl_cons, if_neg hxy]
      obtain ⟨hmem, hle⟩ := ih y
      refine ⟨?_, ?_⟩
      · rcases List.mem_cons.mp hmem with h | h
        · rw [h]; exact List.mem_cons_of_mem _ (List.mem_cons_self _ _)
        · exact List.mem_cons_of_mem _ (List.mem_cons_of_mem _ h)
      · intro z hz
        rcases List.mem_cons.mp hz with h | hz
        · rw [h]
          exact semverLe_trans (semverLe_of_not_gt hxy) (hle y (List.mem_cons_self _ _))
        · rcases List.mem_cons.mp hz with h | hz
          · rw [h]; exact hle y (List.mem_cons_self _ _)
          · exact hle z (List.mem_cons_of_mem _ hz)

theorem max_by_version_spec {l : List Summary} {s : Summary}
    (h : max_by_version l = some s) :
    s ∈ l ∧ ∀ x ∈ l, semverLe x.version s.version := by
  match l with
  | [] => simp [max_by_version] at h
  | x :: xs =>
    simp only [max_by_version, Option.some.injEq] at h
    subst h
    exact foldl_max_by_version x xs

theorem max_by_version_of_ne_nil {l : List Summary} (h : l ≠ []) :
    ∃ s, max_by_version l = some s := by
  match l with
  | [] => exact absurd rfl h
  | x :: xs => exact ⟨_, rfl⟩

/-- C1.  With the source updated, the version constraint parsed and the query
returning `summaries`: if `summaries` is nonempty, `select_pkg` downloads
(`Ev.download`) the summary whose version is greatest in semantic-version
order and returns that download's result; if `summaries` is empty it fails
with a "package not found" error naming the package. -/
theorem c1_select_pkg_max (src : SrcModel) (laRes : Except String (List Package))
    (laEvs : List Ev) (name : String) (vers versArg : Option String)
    (summaries : List Summary)
    (hu : src.updateRes = Except.ok ())
    (hv : versToArg vers = Except.ok versArg)
    (hq : src.queryRes name versArg = Except.ok summaries) :
    (summaries ≠ [] →
      ∃ s, s ∈ summaries ∧ (∀ x ∈ summaries, semverLe x.version s.version) ∧
        select_pkg src laRes laEvs (some name) vers =
          ((match src.downloadRes s.pid with
            | .ok p => SelOutcome.ok p
            | .error e => SelOutcome.err e),
           [Ev.update, Ev.query name versArg, Ev.download s.pid])) ∧
    (summaries = [] →
      select_pkg src laRes laEvs (some name) vers =
        (SelOutcome.err ("package '" ++ name ++ "' not found"),
         [Ev.update, Ev.query name versArg])) := by
  constructor
  · intro hne
    obtain ⟨s, hs⟩ := max_by_version_of_ne_nil hne
    obtain ⟨hmem, hmax⟩ := max_by_version_spec hs
    refine ⟨s, hmem, hmax, ?_⟩
    simp only [select_pkg, hu, hv, hq, hs]
    cases hd : src.downloadRes s.pid <;> simp [hd]
  · intro he
    subst he
    simp only [select_pkg, hu, hv, hq, max_by_version]

/-- Witness for C1: on a query returning versions 1.0.0, 2.1.0 and 0.9.0 of
`foo`, `select_pkg` downloads and returns version 2.1.0. -/
theorem c1_witness :
    (∃ s, s ∈ [sumOf "foo" (ver 1 0 0), sumOf "foo" (ver 2 1 0), sumOf "foo" (ver 0 9 0)] ∧
      (∀ x ∈ [sumOf "foo" (ver 1 0 0), sumOf "foo" (ver 2 1 0), sumOf "foo" (ver 0 9 0)],
        semverLe x.version s.version) ∧
      select_pkg demoSrc (Except.ok []) [] (some "foo") none =
        ((match demoSrc.downloadRes s.pid with
          | .ok p => SelOutcome.ok p
          | .error e => SelOutcome.err e),
         [Ev.update, Ev.query "foo" none, Ev.download s.pid])) ∧
    select_pkg demoSrc (Except.ok []) [] (some "foo") none =
      (SelOutcome.ok (pkgOf "foo" (ver 2 1 0) "/cache/src"),
       [Ev.update, Ev.query "foo" none, Ev.download ⟨"foo", ver 2 1 0⟩]) := by
  constructor
  · exact (c1_select_pkg_max demoSrc (Except.ok []) [] "foo" none none
      [sumOf "foo" (ver 1 0 0), sumOf "foo" (ver 2 1 0), sumOf "foo" (ver 0 9 0)]
      rfl rfl rfl).1 (by decide)
  · decide

/-- C7 counterexample.  On a source whose update succeeds and the malformed
version "not-a-version", `select_pkg` does fail with the version-parse
error, but its event trace already contains `Ev.update`, the source metadata
refresh of line 164 — for a registry or git source a network operation — so
the failure does not occur before every network call. -/
theorem c7_counterexample :
    select_pkg okSrc (Except.ok []) [] (some "foo") (some "not-a-version") =
      (SelOutcome.err "cannot parse 'not-a-version' as a semver", [Ev.update]) ∧
    Ev.update ∈ (select_pkg okSrc (Except.ok []) [] (some "foo") (some "not-a-version")).2 := by
  constructor
  · decide
  · decide

/-- C7 (amended).  For every version string that fails to parse, `select_pkg`
fails with the version-parse error before any query or download call — the
only prior call is the initial source metadata update. -/
theorem c7_parse_failure (src : SrcModel) (laRes : Except String (List Package))
    (laEvs : List Ev) (name v : String)
    (hu : src.updateRes = Except.ok ())
    (hp : semverParse v = none) :
    select_pkg src laRes laEvs (some name) (some v) =
      (SelOutcome.err ("cannot parse '" ++ v ++ "' as a semver"), [Ev.update]) ∧
    (∀ n a, Ev.query n a ∉ (select_pkg src laRes laEvs (some name) (some v)).2) ∧
    (∀ id, Ev.download id ∉ (select_pkg src laRes laEvs (some name) (some v)).2) := by
  have hsel : select_pkg src laRes laEvs (some name) (some v) =
      (SelOutcome.err ("cannot parse '" ++ v ++ "' as a semver"), [Ev.update]) := by
    simp only [select_pkg, versToArg, hu, hp]
  refine ⟨hsel, ?_, ?_⟩
  · intro n a
    rw [hsel]
    simp
  · intro id
    rw [hsel]
    simp

/-- Witness for C7 (amended), at the version string "not-a-version". -/
theorem c7_witness :
    semverParse "not-a-version" = none ∧
    (select_pkg okSrc (Except.ok []) [] (some "foo") (some "not-a-version") =
      (SelOutcome.err ("cannot parse '" ++ "not-a-version" ++ "' as a semver"), [Ev.update]) ∧
    (∀ n a, Ev.query n a ∉
      (select_pkg okSrc (Except.ok []) [] (some "foo") (some "not-a-version")).2) ∧
    (∀ id, Ev.download id ∉
      (select_pkg okSrc (Except.ok []) [] (some "foo") (some "not-a-version")).2)) :=
  ⟨by decide, c7_parse_failure okSrc (Except.ok []) [] "foo" "not-a-version" rfl (by decide)⟩

/-- C10.  When the name is absent and enumeration succeeds: on an empty
package list `select_pkg` panics with an out-of-bounds index (line 192's
`candidates[0]`) instead of returning a not-found error; on a nonempty list
it returns the first package. -/
theorem c10_enumeration_indexing (src : SrcModel) (laEvs : List Ev)
    (vers : Option String) (hu : src.updateRes = Except.ok ()) :
    select_pkg src (Except.ok []) laEvs none vers =
      (SelOutcome.panic "index out of bounds", Ev.update :: laEvs) ∧
    (∀ c cs, select_pkg src (Except.ok (c :: cs)) laEvs none vers =
      (SelOutcome.ok c, Ev.update :: laEvs)) := by
  constructor
  · simp only [select_pkg, hu]
  · intro c cs
    simp only [select_pkg, hu]

/-- Witness for C10: concrete empty and nonempty enumerations. -/
theorem c10_witness :
    select_pkg okSrc (Except.ok []) [Ev.readPackages] none none =
      (SelOutcome.panic "index out of bounds", [Ev.update, Ev.readPackages]) ∧
    (∀ c cs, select_pkg okSrc (Except.ok (c :: cs)) [Ev.readPackages] none none =
      (SelOutcome.ok c, [Ev.update, Ev.readPackages])) :=
  c10_enumeration_indexing okSrc [Ev.readPackages] none rfl

theorem frdGo_pages (fetch : Nat → Except String (List RevVer))
    (pages : Nat → List RevVer) :
    ∀ m p fuel acc reqs,
      (∀ k, p ≤ k → k < p + m → fetch k = Except.ok (pages k) ∧ pages k ≠ []) →
      fetch (p + m) = Except.ok [] →
      m < fuel →
      frdGo fetch fuel p acc reqs =
        (FrdRes.ok (acc ++ pagesConcat pages p m), reqs ++ pageReqs p (m + 1)) := by
  intro m
  induction m with
  | zero =>
    intro p fuel acc reqs h hstop hfuel
    match fuel, hfuel with
    | fuel + 1, _ =>
      rw [Nat.add_zero] at hstop
      simp only [frdGo, hstop]
      simp [pagesConcat, pageReqs]
  | succ m ih =>
    intro p fuel acc reqs h hstop hfuel
    match fuel, hfuel with
    | fuel + 1, hfuel =>
      obtain ⟨hfp, hne⟩ := h p (Nat.le_refl p) (by omega)
      have hemp : (pages p).isEmpty = false := by
        cases hpp : pages p
        · exact absurd (hpp ▸ rfl) hne
        · rfl
      simp only [frdGo, hfp, hemp]
      have hstop' : fetch (p + 1 + m) = Except.ok [] := by
        have : p + 1 + m = p + (m + 1) := by omega
        rw [this]
        exact hstop
      have h' : ∀ k, p + 1 ≤ k → k < p + 1 + m →
          fetch k = Except.ok (pages k) ∧ pages k ≠ [] := by
        intro k hk1 hk2
        exact h k (by omega) (by omega)
      rw [ih (p + 1) fuel (acc ++ (pages p).map RevVer.krate) (reqs ++ [(p, 100)])
        h' hstop' (by omega)]
      simp [pagesConcat, pageReqs, List.append_assoc]

theorem frdGo_err (fetch : Nat → Except String (List RevVer))
    (pages : Nat → List RevVer) (e : String) :
    ∀ m p fuel acc reqs,
      (∀ k, p ≤ k → k < p + m → fetch k = Except.ok (pages k) ∧ pages k ≠ []) →
      fetch (p + m) = Except.error e →
      m < fuel →
      frdGo fetch fuel p acc reqs = (FrdRes.err e, reqs ++ pageReqs p (m + 1)) := by
  intro m
  induction m with
  | zero =>
    intro p fuel acc reqs h hstop hfuel
    match fuel, hfuel with
    | fuel + 1, _ =>
      rw [Nat.add_zero] at hstop
      simp only [frdGo, hstop]
      simp [pageReqs]
  | succ m ih =>
    intro p fuel acc reqs h hstop hfuel
    match fuel, hfuel with
    | fuel + 1, hfuel =>
      obtain ⟨hfp, hne⟩ := h p (Nat.le_refl p) (by omega)
      have hemp : (pages p).isEmpty = false := by
        cases hpp : pages p
        · exact absurd (hpp ▸ rfl) hne
        · rfl
      simp only [frdGo, hfp, hemp]
      have hstop' : fetch (p + 1 + m) = Except.error e := by
        have : p + 1 + m = p + (m + 1) := by omega
        rw [this]
        exact hstop
      have h' : ∀ k, p + 1 ≤ k → k < p + 1 + m →
          fetch k = Except.ok (pages k) ∧ pages k ≠ [] := by
        intro k hk1 hk2
        exact h k (by omega) (by omega)
      rw [ih (p + 1) fuel (acc ++ (pages p).map RevVer.krate) (reqs ++ [(p, 100)])
        h' hstop' (by omega)]
      simp [pageReqs, List.append_assoc]

/-- C5.  `find_reverse_deps` requests pages starting at page 1 with page size
100 and accumulates the dependents' crate names in page order: if pages
`1..n` are nonempty and page `n+1` is empty, it returns the concatenation of
pages `1..n` after exactly the `n+1` requests `(1,100) … (n+1,100)`; if a
page request fails after clean pages `1..m`, the error itself is returned
(the result type carries no partial name list alongside it). -/
theorem c5_find_reverse_deps :
    (∀ (fetch : Nat → Except String (List RevVer)) (pages : Nat → List RevVer)
      (n fuel : Nat),
      (∀ k, 1 ≤ k → k ≤ n → fetch k = Except.ok (pages k) ∧ pages k ≠ []) →
      fetch (n + 1) = Except.ok [] →
      n < fuel →
      find_reverse_deps fetch fuel =
        (FrdRes.ok (pagesConcat pages 1 n), pageReqs 1 (n + 1))) ∧
    (∀ (fetch : Nat → Except String (List RevVer)) (pages : Nat → List RevVer)
      (m fuel : Nat) (e : String),
      (∀ k, 1 ≤ k → k ≤ m → fetch k = Except.ok (pages k) ∧ pages k ≠ []) →
      fetch (m + 1) = Except.error e →
      m < fuel →
      find_reverse_deps fetch fuel = (FrdRes.err e, pageReqs 1 (m + 1))) := by
  constructor
  · intro fetch pages n fuel h hstop hfuel
    unfold find_reverse_deps
    have h' : ∀ k, 1 ≤ k → k < 1 + n → fetch k = Except.ok (pages k) ∧ pages k ≠ [] :=
      fun k hk1 hk2 => h k hk1 (by omega)
    have hstop' : fetch (1 + n) = Except.ok [] := by
      rw [Nat.add_comm 1 n]
      exact hstop
    rw [frdGo_pages fetch pages n 1 fuel [] [] h' hstop' hfuel]
    simp
  · intro fetch pages m fuel e h hstop hfuel
    unfold find_reverse_deps
    have h' : ∀ k, 1 ≤ k → k < 1 + m → fetch k = Except.ok (pages k) ∧ pages k ≠ [] :=
      fun k hk1 hk2 => h k hk1 (by omega)
    have hstop' : fetch (1 + m) = Except.error e := by
      rw [Nat.add_comm 1 m]
      exact hstop
    rw [frdGo_err fetch pages e m 1 fuel [] [] h' hstop' hfuel]
    simp

set_option maxRecDepth 8000 in
/-- Witness for C5: mocked pages of sizes 100, 100, 37, 0 yield exactly 237
names after exactly the 4 requests `(1,100) … (4,100)`. -/
theorem c5_witness :
    find_reverse_deps mockFetch 4 =
      (FrdRes.ok (pagesConcat mockPages 1 3), pageReqs 1 4) ∧
    (pagesConcat mockPages 1 3).length = 237 ∧
    pageReqs 1 4 = [(1, 100), (2, 100), (3, 100), (4, 100)] := by
  refine ⟨c5_find_reverse_deps.1 mockFetch mockPages 3 4 ?_ ?_ ?_, ?_, ?_⟩
  · intro k h1 h3
    refine ⟨rfl, ?_⟩
    interval_cases k <;> decide
  · rfl
  · decide
  · decide
  · decide

theorem crdLoop_call_mem (cloneFn : String → Option String → Except String Unit)
    (pfx : Option String) :
    ∀ l k, k ∈ l → BatchEv.cloneCall k (depPfx pfx k) ∈ crdLoop cloneFn pfx l := by
  intro l
  induction l with
  | nil => intro k hk; simp at hk
  | cons a as ih =>
    intro k hk
    rcases List.mem_cons.mp hk with h | hk
    · subst h
      cases hc : cloneFn k (depPfx pfx k) <;>
        simp only [crdLoop, hc] <;> exact List.mem_cons_self _ _
    · have htail := ih k hk
      cases hc : cloneFn a (depPfx pfx a) with
      | error e =>
        simp only [crdLoop, hc]
        exact List.mem_cons_of_mem _ (List.mem_cons_of_mem _ htail)
      | ok _ =>
        simp only [crdLoop, hc]
        exact List.mem_cons_of_mem _ htail

theorem crdLoop_err_mem (cloneFn : String → Option String → Except String Unit)
    (pfx : Option String) :
    ∀ l k e, k ∈ l → cloneFn k (depPfx pfx k) = Except.error e →
      BatchEv.printErr k e ∈ crdLoop cloneFn pfx l := by
  intro l
  induction l with
  | nil => intro k e hk _; simp at hk
  | cons a as ih =>
    intro k e hk he
    rcases List.mem_cons.mp hk with h | hk
    · subst h
      simp only [crdLoop, he]
      exact List.mem_cons_of_mem _ (List.mem_cons_self _ _)
    · have htail := ih k e hk he
      cases hc : cloneFn a (depPfx pfx a) with
      | error e' =>
        simp only [crdLoop, hc]
        exact List.mem_cons_of_mem _ (List.mem_cons_of_mem _ htail)
      | ok _ =>
        simp only [crdLoop, hc]
        exact List.mem_cons_of_mem _ htail

/-- C6.  When the crawl succeeds with dependents `l`, `clone_reverse_deps`
succeeds, its first console event reports the total count `l.length` before
any clone call, every dependent of `l` gets a clone call (regardless of
other dependents' failures), and every failing dependent's error is printed;
when the crawl itself fails, the batch returns that error. -/
theorem c6_clone_reverse_deps (fetch : Nat → Except String (List RevVer))
    (fuel : Nat) (cloneFn : String → Option String → Except String Unit)
    (krate : String) (pfx : Option String) :
    (∀ l, (find_reverse_deps fetch fuel).1 = FrdRes.ok l →
      (clone_reverse_deps fetch fuel cloneFn krate pfx).1 = BatchRes.ok ∧
      ∃ rest, (clone_reverse_deps fetch fuel cloneFn krate pfx).2 =
          BatchEv.printCount krate l.length :: rest ∧
        (∀ k ∈ l, BatchEv.cloneCall k (depPfx pfx k) ∈ rest) ∧
        (∀ k ∈ l, ∀ e, cloneFn k (depPfx pfx k) = Except.error e →
          BatchEv.printErr k e ∈ rest)) ∧
    (∀ e, (find_reverse_deps fetch fuel).1 = FrdRes.err e →
      clone_reverse_deps fetch fuel cloneFn krate pfx = (BatchRes.err e, [])) := by
  constructor
  · intro l hl
    unfold clone_reverse_deps
    rw [hl]
    refine ⟨rfl, crdLoop cloneFn pfx l, rfl, ?_, ?_⟩
    · intro k hk
      exact crdLoop_call_mem cloneFn pfx l k hk
    · intro k hk e he
      exact crdLoop_err_mem cloneFn pfx l k e hk he
  · intro e he
    unfold clone_reverse_deps
    rw [he]

/-- Witness for C6: three dependents `a`, `b`, `c` where `b`'s clone fails;
the count 3 is printed first, all three are attempted, and `b`'s error is
printed. -/
theorem c6_witness :
    (clone_reverse_deps threeFetch 2 failB "root" (some "/d")).1 = BatchRes.ok ∧
    ∃ rest, (clone_reverse_deps threeFetch 2 failB "root" (some "/d")).2 =
        BatchEv.printCount "root" (["a", "b", "c"].length) :: rest ∧
      (∀ k ∈ ["a", "b", "c"], BatchEv.cloneCall k (depPfx (some "/d") k) ∈ rest) ∧
      (∀ k ∈ ["a", "b", "c"], ∀ e, failB k (depPfx (some "/d") k) = Except.error e →
        BatchEv.printErr k e ∈ rest) :=
  (c6_clone_reverse_deps threeFetch 2 failB "root" (some "/d")).1
    ["a", "b", "c"] (by decide)

theorem select_pkg_events (src : SrcModel) (laRes : Except String (List Package))
    (laEvs : List Ev) (name : Option String) (vers : Option String) :
    ∀ e ∈ (select_pkg src laRes laEvs name vers).2,
      e = Ev.update ∨ e ∈ laEvs ∨ (∃ n v, e = Ev.query n v) ∨
        ∃ id, e = Ev.download id := by
  intro e he
  unfold select_pkg at he
  repeat' split at he
  all_goals simp at he
  all_goals aesop

theorem resolvePkg_events (env : CloneEnv) (krate : Option String)
    (srcid : SourceKind) (vers : Option String) :
    ∀ e ∈ (resolvePkg env krate srcid vers).2,
      e = Ev.update ∨ e = Ev.readPackages ∨ (∃ n v, e = Ev.query n v) ∨
        ∃ id, e = Ev.download id := by
  intro e he
  unfold resolvePkg at he
  repeat' split at he
  all_goals try simp at he
  all_goals
    first
    | exact Or.inl he
    | (rcases he with he | he
       · exact Or.inl he
       · rcases select_pkg_events _ _ _ _ _ _ he with h1 | h1 | h1 | h1
         · exact Or.inl h1
         · first
           | (simp at h1; exact Or.inr (Or.inl h1))
           | simp at h1
         · exact Or.inr (Or.inr (Or.inl h1))
         · exact Or.inr (Or.inr (Or.inr h1)))
    | (rcases select_pkg_events _ _ _ _ _ _ he with h1 | h1 | h1 | h1
       · exact Or.inl h1
       · first
         | (simp at h1; exact Or.inr (Or.inl h1))
         | simp at h1
       · exact Or.inr (Or.inr (Or.inl h1))
       · exact Or.inr (Or.inr (Or.inr h1)))

/-- C3.  When the package resolves but the computed destination exists and
has at least one directory entry, `clone` fails with the destination-conflict
error naming the destination, and performs no destination writes: no
`fs::create_dir_all` call and no `clone_directory` invocation appears in the
event trace. -/
theorem c3_nonempty_destination (env : CloneEnv) (krate : Option String)
    (srcid : SourceKind) (pfx vers : Option String) (pkg : Package)
    (evs : List Ev) (dest x : String) (xs : List String)
    (hl : env.lockRes = Except.ok ())
    (hres : resolvePkg env krate srcid vers = (SelOutcome.ok pkg, evs))
    (hdest : destPath env pfx pkg = Except.ok dest)
    (hex : env.pathExists dest = true)
    (hrd : env.readDirRes dest = Except.ok (x :: xs)) :
    clone env krate srcid pfx vers =
      (CloneOutcome.err ("destination path '" ++ dest ++
         "' already exists and is not an empty directory."), Ev.lock :: evs) ∧
    (∀ p, Ev.createDirAll p ∉ Ev.lock :: evs) ∧
    (∀ a b, Ev.cloneDir a b ∉ Ev.lock :: evs) := by
  have hevs := resolvePkg_events env krate srcid vers
  rw [hres] at hevs
  refine ⟨?_, ?_, ?_⟩
  · simp only [clone, hl, hres, hdest, hex, hrd]
    simp
  · intro p hp
    rcases List.mem_cons.mp hp with h | h
    · exact absurd h (by simp)
    · rcases hevs _ h with h1 | h1 | ⟨n, v, h1⟩ | ⟨id, h1⟩ <;> simp at h1
  · intro a b hp
    rcases List.mem_cons.mp hp with h | h
    · exact absurd h (by simp)
    · rcases hevs _ h with h1 | h1 | ⟨n, v, h1⟩ | ⟨id, h1⟩ <;> simp at h1

/-- Witness for C3: cloning `foo` into the existing nonempty `/busy`. -/
theorem c3_witness :
    clone demoEnv (some "foo") SourceKind.registry (some "/busy") none =
      (CloneOutcome.err ("destination path '" ++ "/busy" ++
         "' already exists and is not an empty directory."),
       Ev.lock :: [Ev.update, Ev.query "foo" none, Ev.download ⟨"foo", ver 2 1 0⟩]) ∧
    (∀ p, Ev.createDirAll p ∉
      Ev.lock :: [Ev.update, Ev.query "foo" none, Ev.download ⟨"foo", ver 2 1 0⟩]) ∧
    (∀ a b, Ev.cloneDir a b ∉
      Ev.lock :: [Ev.update, Ev.query "foo" none, Ev.download ⟨"foo", ver 2 1 0⟩]) :=
  c3_nonempty_destination demoEnv (some "foo") SourceKind.registry (some "/busy")
    none (pkgOf "foo" (ver 2 1 0) "/cache/src")
    [Ev.update, Ev.query "foo" none, Ev.download ⟨"foo", ver 2 1 0⟩]
    "/busy" "junk" [] rfl (by decide) rfl (by decide) (by decide)

/-- C4.  The destination is the supplied prefix verbatim when given, and
`<current working directory>/<package name>` otherwise; when that
destination does not exist, `clone` calls `fs::create_dir_all` on it (which
creates missing parents) before invoking `clone_directory`, as the event
order shows. -/
theorem c4_destination (env : CloneEnv) (krate : Option String)
    (srcid : SourceKind) (pfx vers : Option String) (pkg : Package)
    (evs : List Ev) (dest : String)
    (hl : env.lockRes = Except.ok ())
    (hres : resolvePkg env krate srcid vers = (SelOutcome.ok pkg, evs)) :
    (∀ p, destPath env (some p) pkg = Except.ok p) ∧
    (∀ cwd, env.cwdRes = Except.ok cwd →
      destPath env none pkg = Except.ok (cwd ++ "/" ++ pkg.name)) ∧
    (destPath env pfx pkg = Except.ok dest →
      env.pathExists dest = false →
      env.createDirAllRes dest = Except.ok () →
      clone env krate srcid pfx vers =
        ((match env.cloneDirRes pkg.root dest with
          | .ok _ => CloneOutcome.ok
          | .error e => CloneOutcome.err e),
         (Ev.lock :: evs) ++ [Ev.createDirAll dest, Ev.cloneDir pkg.root dest])) := by
  refine ⟨fun p => rfl, ?_, ?_⟩
  · intro cwd hc
    simp [destPath, hc, Except.map]
  · intro hdest hex hcreate
    simp only [clone, cloneFinish, hl, hres, hdest, hex, hcreate]
    cases hcd : env.cloneDirRes pkg.root dest <;> simp [hcd, List.append_assoc]

/-- Witness for C4: cloning `foo` into the fresh `/fresh`, and the default
destination under the current directory `/work`. -/
theorem c4_witness :
    (∀ p, destPath demoEnv (some p) (pkgOf "foo" (ver 2 1 0) "/cache/src") =
      Except.ok p) ∧
    (demoEnv.cwdRes = Except.ok "/work" →
      destPath demoEnv none (pkgOf "foo" (ver 2 1 0) "/cache/src") =
        Except.ok ("/work" ++ "/" ++ (pkgOf "foo" (ver 2 1 0) "/cache/src").name)) ∧
    clone demoEnv (some "foo") SourceKind.registry (some "/fresh") none =
      (CloneOutcome.ok,
       (Ev.lock :: [Ev.update, Ev.query "foo" none, Ev.download ⟨"foo", ver 2 1 0⟩]) ++
         [Ev.createDirAll "/fresh", Ev.cloneDir "/cache/src" "/fresh"]) := by
  have h := c4_destination demoEnv (some "foo") SourceKind.registry (some "/fresh")
    none (pkgOf "foo" (ver 2 1 0) "/cache/src")
    [Ev.update, Ev.query "foo" none, Ev.download ⟨"foo", ver 2 1 0⟩]
    "/fresh" rfl (by decide)
  refine ⟨h.1, fun _ => h.2.1 "/work" rfl, ?_⟩
  exact h.2.2 rfl (by decide) rfl

/-- C9.  A resolve against a registry source without a package name fails —
after the cache lock and the source metadata update — with the error telling
the caller to specify a crate or use `--path`/`--git`; the event trace shows
no package enumeration, no query and no download. -/
theorem c9_registry_requires_name (env : CloneEnv) (pfx vers : Option String)
    (hl : env.lockRes = Except.ok ()) (hm : env.mapRes = Except.ok ())
    (hld : env.loadRes = Except.ok ()) (hu : env.src.updateRes = Except.ok ()) :
    clone env none SourceKind.registry pfx vers =
      (CloneOutcome.err registryNameMsg, [Ev.lock, Ev.update]) ∧
    Ev.readPackages ∉ ([Ev.lock, Ev.update] : List Ev) ∧
    (∀ id, Ev.download id ∉ ([Ev.lock, Ev.update] : List Ev)) ∧
    (∀ n v, Ev.query n v ∉ ([Ev.lock, Ev.update] : List Ev)) := by
  refine ⟨?_, by simp, fun id => by simp, fun n v => by simp⟩
  simp only [clone, resolvePkg, select_pkg, hl, hm, hld, hu]

/-- Witness for C9, on the concrete environment. -/
theorem c9_witness :
    clone demoEnv none SourceKind.registry none none =
      (CloneOutcome.err registryNameMsg, [Ev.lock, Ev.update]) ∧
    Ev.readPackages ∉ ([Ev.lock, Ev.update] : List Ev) ∧
    (∀ id, Ev.download id ∉ ([Ev.lock, Ev.update] : List Ev)) ∧
    (∀ n v, Ev.query n v ∉ ([Ev.lock, Ev.update] : List Ev)) :=
  c9_registry_requires_name demoEnv none none rfl rfl rfl rfl

theorem cdRun_noFaults (items : List WalkItem)
    (hok : ∀ i ∈ items, ∃ e, i = WalkItem.ok e) :
    cdRun noFaults items = ⟨ExitKind.ok, items.filterMap writeOf⟩ := by
  induction items with
  | nil => rfl
  | cons i rest ih =>
    obtain ⟨e, rfl⟩ := hok i (List.mem_cons_self _ _)
    obtain ⟨rp, nm, nd⟩ := e
    have ih' := ih fun j hj => hok j (List.mem_cons_of_mem _ hj)
    simp only [noFaults] at ih'
    cases nd with
    | file c =>
      by_cases hname : nm = cargoOkName
      · simp [cdRun, writeOf, hname, noFaults, ih', List.filterMap_cons]
      · simp [cdRun, writeOf, hname, noFaults, ih', List.filterMap_cons]
    | dir =>
      by_cases hrp : rp = []
      · simp [cdRun, writeOf, hrp, noFaults, ih', List.filterMap_cons]
      · simp [cdRun, writeOf, hrp, noFaults, ih', List.filterMap_cons]

mutual
theorem walkTree_ok : ∀ (t : FsTree) (rel : List String) (name : String)
    (i : WalkItem), i ∈ walkTree rel name t → ∃ e, i = WalkItem.ok e
  | .file c, rel, name, i, hi => by
    simp [walkTree] at hi
    exact ⟨_, hi⟩
  | .dir d, rel, name, i, hi => by
    simp only [walkTree, List.mem_cons] at hi
    rcases hi with rfl | hi
    · exact ⟨_, rfl⟩
    · exact walkFsDir_ok d rel i hi
theorem walkFsDir_ok : ∀ (d : FsDir) (rel : List String) (i : WalkItem),
    i ∈ walkFsDir rel d → ∃ e, i = WalkItem.ok e
  | .nil, rel, i, hi => by simp [walkFsDir] at hi
  | .cons n t rest, rel, i, hi => by
    simp only [walkFsDir, List.mem_append] at hi
    rcases hi with hi | hi
    · exact walkTree_ok t (rel ++ [n]) n i hi
    · exact walkFsDir_ok rest rel i hi
end

mutual
theorem walkTree_writes : ∀ (t : FsTree) (rel : List String) (name : String),
    (walkTree (rel ++ [name]) name t).filterMap writeOf = mirrorTree rel name t
  | .file c, rel, name => by
    by_cases h : name = cargoOkName <;>
      simp [walkTree, writeOf, mirrorTree, h]
  | .dir d, rel, name => by
    have hne : rel ++ [name] ≠ [] := by simp
    simp [walkTree, writeOf, mirrorTree, hne, List.filterMap_cons,
      walkFsDir_writes d (rel ++ [name])]
theorem walkFsDir_writes : ∀ (d : FsDir) (rel : List String),
    (walkFsDir rel d).filterMap writeOf = mirrorDir rel d
  | .nil, rel => rfl
  | .cons n t rest, rel => by
    simp [walkFsDir, mirrorDir, List.filterMap_append,
      walkTree_writes t rel n, walkFsDir_writes rest rel]
end

theorem getLast_append_singleton (l : List α) (a : α) :
    (l ++ [a]).getLast? = some a := by
  induction l with
  | nil => rfl
  | cons b l ih =>
    rw [List.cons_append, List.getLast?_cons, ih]
    cases l <;> rfl

theorem fileAtDir_mem_names : ∀ (d : FsDir) (m : String) (p : List String)
    (c : String), fileAtDir d m p = some c → m ∈ fsNames d
  | .nil, m, p, c => by simp [fileAtDir]
  | .cons a t rest, m, p, c => by
    simp only [fileAtDir, fsNames]
    split
    · rename_i ham
      intro _
      subst ham
      exact List.mem_cons_self _ _
    · intro h
      exact List.mem_cons_of_mem _ (fileAtDir_mem_names rest m p c h)

theorem dirAtDir_mem_names : ∀ (d : FsDir) (m : String) (p : List String),
    dirAtDir d m p = true → m ∈ fsNames d
  | .nil, m, p => by simp [dirAtDir]
  | .cons a t rest, m, p => by
    simp only [dirAtDir, fsNames]
    split
    · rename_i ham
      intro _
      subst ham
      exact List.mem_cons_self _ _
    · intro h
      exact List.mem_cons_of_mem _ (dirAtDir_mem_names rest m p h)

theorem wfDir_cons {n : String} {t : FsTree} {rest : FsDir}
    (h : wfDir (FsDir.cons n t rest) = true) :
    n ∉ fsNames rest ∧ wfTree t = true ∧ wfDir rest = true := by
  simp only [wfDir, Bool.and_eq_true, Bool.not_eq_true'] at h
  refine ⟨?_, h.1.2, h.2⟩
  have hc := h.1.1
  simpa using hc

mutual
theorem mirrorTree_copy : ∀ (t : FsTree) (rel : List String) (name : String)
    (p : List String) (c : String), wfTree t = true →
    (Write.copyFile p c ∈ mirrorTree rel name t ↔
      ∃ r, p = rel ++ name :: r ∧ fileAt t r = some c ∧
        p.getLast? ≠ some cargoOkName)
  | .file c', rel, name, p, c, _ => by
    constructor
    · intro hm
      by_cases h : name = cargoOkName
      · simp [mirrorTree, h] at hm
      · simp [mirrorTree, h] at hm
        refine ⟨[], ?_, ?_, ?_⟩
        · exact hm.1
        · rw [fileAt, hm.2]
        · rw [hm.1, getLast_append_singleton]
          simp [h]
    · rintro ⟨r, hp, hf, hgl⟩
      match r, hf with
      | [], hf =>
        simp only [fileAt, Option.some.injEq] at hf
        have hpe : p = rel ++ [name] := hp
        rw [hpe, getLast_append_singleton] at hgl
        have hn : name ≠ cargoOkName := fun h => hgl (by rw [h])
        simp [mirrorTree, hn, hpe, hf]
  | .dir d, rel, name, p, c, hwf => by
    have hd := mirrorDir_copy d (rel ++ [name]) p c hwf
    constructor
    · intro hm
      simp only [mirrorTree, List.mem_cons] at hm
      rcases hm with hm | hm
      · exact absurd hm (by simp)
      · obtain ⟨r, hp, hf, hgl⟩ := hd.mp hm
        exact ⟨r, by simpa [List.append_assoc] using hp, hf, hgl⟩
    · rintro ⟨r, hp, hf, hgl⟩
      simp only [mirrorTree, List.mem_cons]
      refine Or.inr (hd.mpr ⟨r, ?_, hf, hgl⟩)
      simpa [List.append_assoc] using hp
theorem mirrorDir_copy : ∀ (d : FsDir) (rel : List String) (p : List String)
    (c : String), wfDir d = true →
    (Write.copyFile p c ∈ mirrorDir rel d ↔
      ∃ r, p = rel ++ r ∧ fileAt (FsTree.dir d) r = some c ∧
        p.getLast? ≠ some cargoOkName)
  | .nil, rel, p, c, _ => by
    simp only [mirrorDir, List.not_mem_nil, false_iff]
    rintro ⟨r, hp, hf, hgl⟩
    match r, hf with
    | n :: r', hf => simp [fileAt, fileAtDir] at hf
  | .cons n t rest, rel, p, c, hwf => by
    obtain ⟨hnames, hwt, hwr⟩ := wfDir_cons hwf
    have ht := mirrorTree_copy t rel n p c hwt
    have hr := mirrorDir_copy rest rel p c hwr
    constructor
    · intro hm
      simp only [mirrorDir, List.mem_append] at hm
      rcases hm with hm | hm
      · obtain ⟨r, hp, hf, hgl⟩ := ht.mp hm
        refine ⟨n :: r, hp, ?_, hgl⟩
        simp [fileAt, fileAtDir, hf]
      · obtain ⟨r, hp, hf, hgl⟩ := hr.mp hm
        match r, hf with
        | m :: r', hf =>
          simp only [fileAt] at hf
          have hcont := fileAtDir_mem_names rest m r' c hf
          have hmn : ¬ n = m := fun h => hnames (h ▸ hcont)
          refine ⟨m :: r', hp, ?_, hgl⟩
          simp [fileAt, fileAtDir, hmn, hf]
    · rintro ⟨r, hp, hf, hgl⟩
      simp only [mirrorDir, List.mem_append]
      match r, hf with
      | m :: r', hf =>
        simp only [fileAt, fileAtDir] at hf
        by_cases hnm : n = m
        · rw [if_pos hnm] at hf
          subst hnm
          exact Or.inl (ht.mpr ⟨r', hp, hf, hgl⟩)
        · rw [if_neg hnm] at hf
          refine Or.inr (hr.mpr ⟨m :: r', hp, ?_, hgl⟩)
          simp [fileAt, hf]
end

mutual
theorem mirrorTree_mkdir : ∀ (t : FsTree) (rel : List String) (name : String)
    (p : List String), wfTree t = true →
    (Write.mkdir p ∈ mirrorTree rel name t ↔
      ∃ r, p = rel ++ name :: r ∧ dirAt t r = true)
  | .file c', rel, name, p, _ => by
    constructor
    · intro hm
      by_cases h : name = cargoOkName <;> simp [mirrorTree, h] at hm
    · rintro ⟨r, hp, hd⟩
      rw [dirAt] at hd
      exact absurd hd (by simp)
  | .dir d, rel, name, p, hwf => by
    have hd := mirrorDir_mkdir d (rel ++ [name]) p hwf
    constructor
    · intro hm
      simp only [mirrorTree, List.mem_cons] at hm
      rcases hm with hm | hm
      · simp only [Write.mkdir.injEq] at hm
        refine ⟨[], by simpa using hm, rfl⟩
      · obtain ⟨r, hp, hdr, hda⟩ := hd.mp hm
        exact ⟨r, by simpa [List.append_assoc] using hp, hda⟩
    · rintro ⟨r, hp, hda⟩
      simp only [mirrorTree, List.mem_cons]
      match r with
      | [] =>
        left
        simp [hp]
      | m :: r' =>
        right
        refine hd.mpr ⟨m :: r', ?_, by simp, hda⟩
        simpa [List.append_assoc] using hp
theorem mirrorDir_mkdir : ∀ (d : FsDir) (rel : List String) (p : List String),
    wfDir d = true →
    (Write.mkdir p ∈ mirrorDir rel d ↔
      ∃ r, p = rel ++ r ∧ r ≠ [] ∧ dirAt (FsTree.dir d) r = true)
  | .nil, rel, p, _ => by
    simp only [mirrorDir, List.not_mem_nil, false_iff]
    rintro ⟨r, hp, hne, hda⟩
    match r, hne with
    | m :: r', _ => simp [dirAt, dirAtDir] at hda
  | .cons n t rest, rel, p, hwf => by
    obtain ⟨hnames, hwt, hwr⟩ := wfDir_cons hwf
    have ht := mirrorTree_mkdir t rel n p hwt
    have hr := mirrorDir_mkdir rest rel p hwr
    constructor
    · intro hm
      simp only [mirrorDir, List.mem_append] at hm
      rcases hm with hm | hm
      · obtain ⟨r, hp, hda⟩ := ht.mp hm
        refine ⟨n :: r, hp, by simp, ?_⟩
        simp [dirAt, dirAtDir, hda]
      · obtain ⟨r, hp, hne, hda⟩ := hr.mp hm
        match r, hne with
        | m :: r', _ =>
          simp only [dirAt] at hda
          have hcont := dirAtDir_mem_names rest m r' hda
          have hmn : ¬ n = m := fun h => hnames (h ▸ hcont)
          refine ⟨m :: r', hp, by simp, ?_⟩
          simp [dirAt, dirAtDir, hmn, hda]
    · rintro ⟨r, hp, hne, hda⟩
      simp only [mirrorDir, List.mem_append]
      match r, hne with
      | m :: r', _ =>
        simp only [dirAt, dirAtDir] at hda
        by_cases hnm : n = m
        · rw [if_pos hnm] at hda
          subst hnm
          exact Or.inl (ht.mpr ⟨r', hp, hda⟩)
        · rw [if_neg hnm] at hda
          refine Or.inr (hr.mpr ⟨m :: r', hp, by simp, ?_⟩)
          simp [dirAt, hda]
end

theorem walkRoot_writes (rootName : String) (d : FsDir) :
    (walkRoot rootName d).filterMap writeOf = mirrorDir [] d := by
  have h := walkFsDir_writes d []
  simp [walkRoot, walkTree, writeOf, List.filterMap_cons, h]

/-- C2.  Copying any well-formed source tree with `clone_directory` (into an
existing empty directory, no filesystem faults) succeeds, never writes a
file whose final name component is `.cargo-ok` at any depth, writes exactly
the source's other regular files at their relative paths with identical
contents, and creates exactly the source's non-root directories. -/
theorem c2_clone_directory (toPath rootName : String) (d : FsDir)
    (hwf : wfDir d = true) :
    (clone_directory toPath true (walkRoot rootName d) noFaults).exit =
      ExitKind.ok ∧
    (∀ p c, Write.copyFile p c ∈
        (clone_directory toPath true (walkRoot rootName d) noFaults).writes →
      p.getLast? ≠ some cargoOkName) ∧
    (∀ p c, p.getLast? ≠ some cargoOkName →
      (Write.copyFile p c ∈
          (clone_directory toPath true (walkRoot rootName d) noFaults).writes ↔
        fileAt (FsTree.dir d) p = some c)) ∧
    (∀ p, Write.mkdir p ∈
        (clone_directory toPath true (walkRoot rootName d) noFaults).writes ↔
      (p ≠ [] ∧ dirAt (FsTree.dir d) p = true)) := by
  have hitems : ∀ i ∈ walkRoot rootName d, ∃ e, i = WalkItem.ok e :=
    fun i hi => walkTree_ok (FsTree.dir d) [] rootName i hi
  have hrun : clone_directory toPath true (walkRoot rootName d) noFaults =
      ⟨ExitKind.ok, mirrorDir [] d⟩ := by
    unfold clone_directory
    rw [cdRun_noFaults (walkRoot rootName d) hitems, walkRoot_writes]
    rfl
  rw [hrun]
  refine ⟨rfl, ?_, ?_, ?_⟩
  · intro p c hm
    obtain ⟨r, _, _, hgl⟩ := (mirrorDir_copy d [] p c hwf).mp hm
    exact hgl
  · intro p c hgl
    rw [mirrorDir_copy d [] p c hwf]
    constructor
    · rintro ⟨r, hp, hf, _⟩
      rw [List.nil_append] at hp
      rw [hp]
      exact hf
    · intro hf
      exact ⟨p, by simp, hf, hgl⟩
  · intro p
    rw [mirrorDir_mkdir d [] p hwf]
    constructor
    · rintro ⟨r, hp, hne, hda⟩
      rw [List.nil_append] at hp
      subst hp
      exact ⟨hne, hda⟩
    · rintro ⟨hne, hda⟩
      exact ⟨p, by simp, hne, hda⟩

/-- Witness for C2: a tree with `.cargo-ok` files at two depths; the copy
performs exactly three writes, none of them a `.cargo-ok` file. -/
theorem c2_witness :
    wfDir demoFsDir = true ∧
    (clone_directory "/dest" true (walkRoot "pkg" demoFsDir) noFaults).exit =
      ExitKind.ok ∧
    (∀ p c, Write.copyFile p c ∈
        (clone_directory "/dest" true (walkRoot "pkg" demoFsDir) noFaults).writes →
      p.getLast? ≠ some cargoOkName) ∧
    (∀ p c, p.getLast? ≠ some cargoOkName →
      (Write.copyFile p c ∈
          (clone_directory "/dest" true (walkRoot "pkg" demoFsDir) noFaults).writes ↔
        fileAt (FsTree.dir demoFsDir) p = some c)) ∧
    (∀ p, Write.mkdir p ∈
        (clone_directory "/dest" true (walkRoot "pkg" demoFsDir) noFaults).writes ↔
      (p ≠ [] ∧ dirAt (FsTree.dir demoFsDir) p = true)) ∧
    (clone_directory "/dest" true (walkRoot "pkg" demoFsDir) noFaults).writes =
      [Write.copyFile ["Cargo.toml"] "[package]", Write.mkdir ["src"],
       Write.copyFile ["src", "main.rs"] "fn main"] := by
  have h := c2_clone_directory "/dest" "pkg" demoFsDir (by decide)
  exact ⟨by decide, h.1, h.2.1, h.2.2.1, h.2.2.2, by decide⟩

/-- C8 counterexample.  A failure of the directory walk itself is
`unwrap`ped (line 204): the copy aborts via a Rust panic, not by surfacing
the underlying error to the caller as an `Err` return. -/
theorem c8_counterexample :
    clone_directory "/dest" true [WalkItem.err "walk io error"] noFaults =
      ⟨ExitKind.panic "walk io error", []⟩ ∧
    (clone_directory "/dest" true [WalkItem.err "walk io error"]
      noFaults).exit ≠ ExitKind.err "walk io error" := by
  constructor
  · rfl
  · simp [clone_directory, cdRun]

theorem cdRun_clean_app (f : CdFaults) :
    ∀ (es₁ : List WalkItem),
      (∀ i ∈ es₁, ∃ e, i = WalkItem.ok e ∧ entryFault f e = none) →
      ∀ es₂, cdRun f (es₁ ++ es₂) =
        ⟨(cdRun f es₂).exit, es₁.filterMap writeOf ++ (cdRun f es₂).writes⟩ := by
  intro es₁
  induction es₁ with
  | nil => intro _ es₂; simp
  | cons i rest ih =>
    intro h es₂
    obtain ⟨e, rfl, hfault⟩ := h i (List.mem_cons_self _ _)
    obtain ⟨rp, nm, nd⟩ := e
    have ih' := ih (fun j hj => h j (List.mem_cons_of_mem _ hj)) es₂
    cases nd with
    | file c =>
      by_cases hname : nm = cargoOkName
      · simp [cdRun, writeOf, hname, ih', List.filterMap_cons]
      · simp only [entryFault, ne_eq, hname, not_false_iff, if_true] at hfault
        simp [cdRun, writeOf, hname, hfault, ih', List.filterMap_cons]
    | dir =>
      by_cases hrp : rp = []
      · simp [cdRun, writeOf, hrp, ih', List.filterMap_cons]
      · simp only [entryFault, hrp, if_false] at hfault
        simp [cdRun, writeOf, hrp, hfault, ih', List.filterMap_cons]

theorem cdRun_fault_head (f : CdFaults) (e : WalkEntry) (msg : String)
    (es₂ : List WalkItem) (h : entryFault f e = some msg) :
    cdRun f (WalkItem.ok e :: es₂) = ⟨ExitKind.err msg, []⟩ := by
  obtain ⟨rp, nm, nd⟩ := e
  cases nd with
  | file c =>
    by_cases hname : nm = cargoOkName
    · simp [entryFault, hname] at h
    · simp only [entryFault, ne_eq, hname, not_false_iff, if_true] at h
      simp [cdRun, hname, h]
  | dir =>
    by_cases hrp : rp = []
    · simp [entryFault, hrp] at h
    · simp only [entryFault, hrp, if_false] at h
      simp [cdRun, hrp, h]

/-- C8 (amended).  After a fault-free prefix of the walk, a failing
`fs::copy` or `fs::create_dir` aborts the whole copy and surfaces the
underlying error with no retry (only the prefix's writes were performed);
a failure of the walk itself also aborts the copy immediately, but via a
panic (`entry.unwrap()`), not via a returned error. -/
theorem c8_failure_propagation (toPath : String) (f : CdFaults)
    (es₁ es₂ : List WalkItem)
    (h₁ : ∀ i ∈ es₁, ∃ e, i = WalkItem.ok e ∧ entryFault f e = none) :
    (∀ e msg, entryFault f e = some msg →
      clone_directory toPath true (es₁ ++ WalkItem.ok e :: es₂) f =
        ⟨ExitKind.err msg, es₁.filterMap writeOf⟩) ∧
    (∀ m, clone_directory toPath true (es₁ ++ WalkItem.err m :: es₂) f =
      ⟨ExitKind.panic m, es₁.filterMap writeOf⟩) := by
  constructor
  · intro e msg he
    show cdRun f (es₁ ++ WalkItem.ok e :: es₂) = _
    rw [cdRun_clean_app f es₁ h₁ (WalkItem.ok e :: es₂),
      cdRun_fault_head f e msg es₂ he]
    simp
  · intro m
    show cdRun f (es₁ ++ WalkItem.err m :: es₂) = _
    rw [cdRun_clean_app f es₁ h₁ (WalkItem.err m :: es₂)]
    simp [cdRun]

/-- Witness for C8 (amended): after a clean root directory and one clean
file, the copy of `bad.txt` fails and only the clean prefix's write
remains. -/
theorem c8_witness :
    entryFault faultyCopy ⟨["bad.txt"], "bad.txt", EntryNode.file "B"⟩ =
      some "copy failed" ∧
    clone_directory "/dest" true
      ([WalkItem.ok ⟨[], "pkg", EntryNode.dir⟩,
        WalkItem.ok ⟨["a.txt"], "a.txt", EntryNode.file "A"⟩] ++
       WalkItem.ok ⟨["bad.txt"], "bad.txt", EntryNode.file "B"⟩ ::
         [WalkItem.ok ⟨["c.txt"], "c.txt", EntryNode.file "C"⟩]) faultyCopy =
      ⟨ExitKind.err "copy failed",
       [WalkItem.ok ⟨[], "pkg", EntryNode.dir⟩,
        WalkItem.ok ⟨["a.txt"], "a.txt", EntryNode.file "A"⟩].filterMap writeOf⟩ := by
  refine ⟨by decide, ?_⟩
  refine (c8_failure_propagation "/dest" faultyCopy _ _ ?_).1 _ "copy failed" (by decide)
  intro i hi
  simp only [List.mem_cons, List.not_mem_nil, or_false] at hi
  rcases hi with rfl | rfl
  · exact ⟨_, rfl, by decide⟩
  · exact ⟨_, rfl, by decide⟩

end CargoClone
